import Mathlib

/-!
Shallow embedding of the Kuree/systemverilog repository (code/09):
  * `dog.cc` — a `Dog` class holding a single C `int` accumulator `distance_`,
    exposed to C via `dog_ctor` / `dog_dctor` / `dog_run` / `dog_distance`.
  * `send_udp_packet.cc` — `read_data` copies a DPI open array into a local
    `std::vector<char>`, and `send_udp_packet` calls it and returns 0.

C `int` is modelled as a 32-bit two's-complement machine integer: values are
kept as their canonical non-negative representative in `[0, 2^32)`, addition
is taken modulo `2^32`, and reading the value re-interprets the representative
as a signed integer in `[-2^31, 2^31)`.
-/

/-- `2^32`, the modulus of 32-bit machine arithmetic. -/
def int32Mod : Int := 4294967296

/-- `2^31`, the boundary between non-negative and negative
two's-complement representatives. -/
def int32Half : Int := 2147483648

/-- Canonical two's-complement representative of an integer as a 32-bit
machine word: the remainder in `[0, 2^32)`. -/
def wrap32 (x : Int) : Int := x % int32Mod

/-- Signed reading of a 32-bit machine word: the unique integer in
`[-2^31, 2^31)` congruent to `x` modulo `2^32`. -/
def toSigned32 (x : Int) : Int :=
  if x % int32Mod < int32Half then x % int32Mod else x % int32Mod - int32Mod

/-- The `Dog` class of `dog.cc`: one private field `int distance_`.
The field stores the canonical 32-bit representative. -/
structure Dog where
  distance_ : Int
deriving DecidableEq, Repr

/-- `Dog(): distance_(0) {}` — the constructor zero-initialises the field. -/
def Dog.init : Dog := ⟨0⟩

/-- `void run(int distance) { distance_ += distance; }` — 32-bit addition. -/
def Dog.run (d : Dog) (distance : Int) : Dog :=
  ⟨wrap32 (d.distance_ + distance)⟩

/-- `int distance() const { return distance_; }` — returns the accumulator,
read as a signed 32-bit value. -/
def Dog.distance (d : Dog) : Int := toSigned32 d.distance_

/-- Well-formedness of a `Dog` state: the stored field is a canonical
32-bit representative.  Holds for `Dog.init` and is preserved by `Dog.run`. -/
def Dog.Wf (d : Dog) : Prop := 0 ≤ d.distance_ ∧ d.distance_ < int32Mod

instance (d : Dog) : Decidable d.Wf := by
  unfold Dog.Wf; infer_instance

lemma int32Mod_pos : (0 : Int) < int32Mod := by decide

lemma wrap32_nonneg (x : Int) : 0 ≤ wrap32 x :=
  Int.emod_nonneg x (by decide)

lemma wrap32_lt (x : Int) : wrap32 x < int32Mod :=
  Int.emod_lt_of_pos x int32Mod_pos

lemma Dog.init_wf : Dog.Wf Dog.init := by decide

lemma Dog.run_wf (d : Dog) (a : Int) : (d.run a).Wf :=
  ⟨wrap32_nonneg _, wrap32_lt _⟩

lemma wrap32_add_left (x y : Int) : wrap32 (wrap32 x + y) = wrap32 (x + y) := by
  unfold wrap32
  exact Int.emod_add_emod x int32Mod y

lemma wrap32_wrap32 (x : Int) : wrap32 (wrap32 x) = wrap32 x := by
  unfold wrap32
  exact Int.emod_emod_of_dvd x dvd_rfl

lemma toSigned32_wrap32 (x : Int) : toSigned32 (wrap32 x) = toSigned32 x := by
  unfold toSigned32
  rw [show wrap32 x % int32Mod = x % int32Mod from wrap32_wrap32 x]

lemma toSigned32_eq_self (x : Int) (h1 : -int32Half ≤ x) (h2 : x < int32Half) :
    toSigned32 x = x := by
  unfold toSigned32 int32Half int32Mod at *
  omega

/-- Folding a list of increments over a well-formed state accumulates the
wrapped sum. -/
lemma Dog.foldl_run_distance_ (as : List Int) :
    ∀ d : Dog, d.Wf → (as.foldl Dog.run d).distance_ = wrap32 (d.distance_ + as.sum) := by
  induction as with
  | nil =>
    intro d hd
    simp only [List.foldl_nil, List.sum_nil, add_zero]
    unfold wrap32
    exact (Int.emod_eq_of_lt hd.1 hd.2).symm
  | cons a as ih =>
    intro d hd
    simp only [List.foldl_cons, List.sum_cons]
    rw [ih (d.run a) (d.run_wf a)]
    show wrap32 (wrap32 (d.distance_ + a) + as.sum) = _
    rw [wrap32_add_left]
    ring_nf

/-!
The `extern "C"` shim of `dog.cc`.  A handle (`void*`) is modelled as an
index into a heap of allocated objects; a destroyed object leaves a `none`
slot behind, so the handle value itself stays distinguishable from a live
one (as an address does after `delete`).  Calls that dereference a handle
that is not live are undefined behaviour in the source (no validity check
exists there); the model makes them return `none` (no defined outcome).
-/

/-- The four C entry points of `dog.cc`. -/
inductive DpiCall where
  | ctor : DpiCall
  | dctor : Nat → DpiCall
  | run : Nat → Int → DpiCall
  | distance : Nat → DpiCall
deriving DecidableEq, Repr

/-- Observable result of a call: `dog_run`/`dog_dctor` return nothing,
`dog_ctor` returns a handle, `dog_distance` returns an `int`. -/
inductive DpiRet where
  | unit : DpiRet
  | handle : Nat → DpiRet
  | val : Int → DpiRet
deriving DecidableEq, Repr

/-- The caller-side memory: every handle ever allocated, live (`some`)
or already destroyed (`none`). -/
structure Mem where
  heap : List (Option Dog)
deriving DecidableEq, Repr

/-- Dereference a handle: `some d` exactly when the handle is live. -/
def Mem.live (m : Mem) (h : Nat) : Option Dog := m.heap.getD h none

/-- One call through the C shim.  `none` models undefined behaviour:
the source dereferences the pointer without any validity check, so a
non-live handle has no defined outcome.
  * `dog_ctor` — `new Dog()`: appends a fresh `Dog` and returns its handle.
  * `dog_dctor` — `delete`: frees the slot.
  * `dog_run` — `ptr->run(distance)`.
  * `dog_distance` — `return ptr->distance();`. -/
def dpiStep (m : Mem) : DpiCall → Option (Mem × DpiRet)
  | .ctor => some (⟨m.heap ++ [some Dog.init]⟩, .handle m.heap.length)
  | .dctor h =>
      match m.live h with
      | some _ => some (⟨m.heap.set h none⟩, .unit)
      | none => none
  | .run h a =>
      match m.live h with
      | some d => some (⟨m.heap.set h (some (d.run a))⟩, .unit)
      | none => none
  | .distance h =>
      match m.live h with
      | some d => some (m, .val d.distance)
      | none => none

/-!
`send_udp_packet.cc`.  A DPI open array handle is modelled by its bounds
`svLeft(array, 1)` / `svRight(array, 1)` and the contents read through
`svGetArrElemPtr1` (a `char` value per index).  `svSize(array, 1)` is used
by the source only to `reserve` capacity, which has no observable effect
on the resulting vector, so it does not appear in the model.
-/

/-- A one-dimensional DPI open array descriptor. -/
structure SvOpenArray where
  left : Int
  right : Int
  elem : Int → Int

/-- The loop `for (auto i = low; i <= high; i++) result.emplace_back(*value);`
of `read_data`, with fuel equal to the trip count so the recursion is
structural.  Each iteration appends the element at `i`. -/
def readLoop (a : SvOpenArray) : Nat → Int → List Int → List Int
  | 0, _, acc => acc
  | fuel + 1, i, acc =>
      if i ≤ a.right then readLoop a fuel (i + 1) (acc ++ [a.elem i]) else acc

/-- `std::vector<char> read_data(svOpenArrayHandle array)`: copy the open
array element-by-element, from `svLeft` up to `svRight` inclusive, into a
fresh local vector. -/
def read_data (a : SvOpenArray) : List Int :=
  readLoop a (a.right + 1 - a.left).toNat a.left []

/-- `int send_udp_packet(const char *ip_address, uint16_t port,
svOpenArrayHandle data)`: marshal the array, then (the sink being
unimplemented) return 0. -/
def send_udp_packet (ip_address : String) (port : Nat) (data : SvOpenArray) : Int :=
  let byte_data := read_data data
  0

/-- Unfolding of `readLoop`: it appends the elements at
`i, i+1, ..., i+fuel-1` as long as they do not pass `right`. -/
lemma readLoop_eq (a : SvOpenArray) :
    ∀ (fuel : Nat) (i : Int) (acc : List Int), (a.right + 1 - i).toNat = fuel →
      readLoop a fuel i acc =
        acc ++ (List.range fuel).map (fun k : Nat => a.elem (i + (k : Int))) := by
  intro fuel
  induction fuel with
  | zero =>
    intro i acc _
    simp [readLoop]
  | succ n ih =>
    intro i acc hfuel
    have hi : i ≤ a.right := by omega
    rw [readLoop, if_pos hi, ih (i + 1) _ (by omega)]
    rw [List.range_succ_eq_map, List.map_cons, List.map_map]
    have hcomp : ((fun k : Nat => a.elem (i + (k : Int))) ∘ Nat.succ)
        = fun k : Nat => a.elem (i + 1 + (k : Int)) := by
      funext k
      simp only [Function.comp_apply, Nat.succ_eq_add_one]
      push_cast
      ring_nf
    rw [hcomp]
    simp

/-- `read_data` as a closed form: element `k` of the result is the array
element at index `left + k`. -/
lemma read_data_eq (a : SvOpenArray) :
    read_data a =
      (List.range (a.right + 1 - a.left).toNat).map
        (fun k : Nat => a.elem (a.left + (k : Int))) := by
  simpa using readLoop_eq a _ a.left [] rfl

/-! Helper lemmas about handle dereferencing in the heap model. -/

lemma Mem.live_lt {m : Mem} {h : Nat} {d : Dog} (hd : m.live h = some d) :
    h < m.heap.length := by
  by_contra hge
  push_neg at hge
  rw [Mem.live, List.getD_eq_getElem?_getD, List.getElem?_eq_none hge] at hd
  simp at hd

lemma Mem.live_concat_self (m : Mem) (x : Option Dog) :
    Mem.live ⟨m.heap ++ [x]⟩ m.heap.length = x := by
  rw [Mem.live, List.getD_eq_getElem?_getD, List.getElem?_concat_length]
  rfl

lemma Mem.live_concat_of_lt (m : Mem) (x : Option Dog) (h : Nat)
    (hh : h < m.heap.length) : Mem.live ⟨m.heap ++ [x]⟩ h = m.live h := by
  rw [Mem.live, Mem.live, List.getD_eq_getElem?_getD, List.getD_eq_getElem?_getD,
    List.getElem?_append, if_pos hh]

lemma Mem.live_concat_of_gt (m : Mem) (x : Option Dog) (h : Nat)
    (hh : m.heap.length < h) : Mem.live ⟨m.heap ++ [x]⟩ h = none := by
  rw [Mem.live, List.getD_eq_getElem?_getD,
    List.getElem?_append_right (le_of_lt hh), List.getElem?_eq_none (by simp; omega)]
  rfl

lemma Mem.live_set_self (m : Mem) (h : Nat) (x : Option Dog)
    (hh : h < m.heap.length) : Mem.live ⟨m.heap.set h x⟩ h = x := by
  rw [Mem.live, List.getD_eq_getElem?_getD, List.getElem?_set_self hh]
  rfl

lemma Mem.live_set_ne (m : Mem) (h h' : Nat) (x : Option Dog)
    (hne : h' ≠ h) : Mem.live ⟨m.heap.set h x⟩ h' = m.live h' := by
  rw [Mem.live, Mem.live, List.getD_eq_getElem?_getD, List.getD_eq_getElem?_getD,
    List.getElem?_set_ne (fun he => hne he.symm)]

lemma toSigned32_bounds (x : Int) :
    -int32Half ≤ toSigned32 x ∧ toSigned32 x < int32Half := by
  unfold toSigned32 int32Half int32Mod
  split <;> omega

lemma toSigned32_emod (x : Int) : toSigned32 x % int32Mod = x % int32Mod := by
  unfold toSigned32 int32Half int32Mod
  split <;> omega

/-- Query after any sequence of increments from a fresh object: the signed
32-bit reading of the wrapped sum.  Shared by several claim theorems. -/
lemma Dog.distance_foldl (as : List Int) :
    Dog.distance (as.foldl Dog.run Dog.init) = toSigned32 as.sum := by
  rw [Dog.distance, Dog.foldl_run_distance_ as Dog.init Dog.init_wf]
  show toSigned32 (wrap32 ((0 : Int) + as.sum)) = _
  rw [zero_add, toSigned32_wrap32]

/-- Claim C3 (confirmed): `dog_ctor` (`new Dog()`) returns a handle to an
object whose accumulator is 0, and `dog_distance` called immediately on that
fresh handle, with no intervening operation, returns 0 leaving the state
unchanged. -/
theorem query_after_create_returns_zero (m : Mem) :
    dpiStep m .ctor = some (⟨m.heap ++ [some Dog.init]⟩, .handle m.heap.length) ∧
    Dog.init.distance_ = 0 ∧
    dpiStep ⟨m.heap ++ [some Dog.init]⟩ (.distance m.heap.length) =
      some (⟨m.heap ++ [some Dog.init]⟩, .val 0) := by
  refine ⟨rfl, rfl, ?_⟩
  have hlive : Mem.live ⟨m.heap ++ [some Dog.init]⟩ m.heap.length = some Dog.init :=
    Mem.live_concat_self m (some Dog.init)
  simp only [dpiStep, hlive]
  have hz : Dog.init.distance = 0 := by decide
  rw [hz]

/-- Claim C5 (confirmed): `send_udp_packet` unconditionally returns the
status code 0 for every address, port and array: it has no failure path. -/
theorem send_udp_packet_returns_zero (ip_address : String) (port : Nat)
    (data : SvOpenArray) : send_udp_packet ip_address port data = 0 := rfl

/-- Claim C10 (confirmed): the accumulator is a 32-bit machine integer, so
after any sequence of increments from a fresh object, Query returns the
signed 32-bit wraparound of the mathematical sum: the unique value in
`[-2^31, 2^31)` congruent to the sum modulo `2^32`. -/
theorem query_returns_wrapped_sum (as : List Int) :
    Dog.distance (as.foldl Dog.run Dog.init) = toSigned32 as.sum ∧
    -int32Half ≤ toSigned32 as.sum ∧ toSigned32 as.sum < int32Half ∧
    toSigned32 as.sum % int32Mod = as.sum % int32Mod :=
  ⟨Dog.distance_foldl as, (toSigned32_bounds as.sum).1, (toSigned32_bounds as.sum).2,
    toSigned32_emod as.sum⟩

/-- Claim C1 is refuted as stated: for increments `2^31 - 1` and `1` the
mathematical sum is `2^31`, but Query returns the 32-bit wraparound
`-2^31`, not the sum. -/
theorem query_sum_counterexample :
    Dog.distance ([2147483647, 1].foldl Dog.run Dog.init) ≠
      ([2147483647, 1] : List Int).sum := by decide

/-- Claim C1 (corrected): for every finite sequence of increments applied to
a fresh object, Query returns the sum whenever the sum fits in the signed
32-bit range `[-2^31, 2^31)`; in general it returns the 32-bit wraparound of
the sum.  In particular Create, Increment(5), Increment(-2), Query returns 3
(see the witness). -/
theorem query_returns_sum_when_in_range (as : List Int)
    (h1 : -int32Half ≤ as.sum) (h2 : as.sum < int32Half) :
    Dog.distance (as.foldl Dog.run Dog.init) = as.sum := by
  rw [Dog.distance_foldl, toSigned32_eq_self as.sum h1 h2]

/-- Witness for the corrected claim C1 at the spec's scenario: increments
`5` then `-2` give sum `3`, which Query returns. -/
theorem query_returns_sum_when_in_range_witness :
    (-int32Half ≤ ([5, -2] : List Int).sum ∧ ([5, -2] : List Int).sum < int32Half) ∧
    Dog.distance ([5, -2].foldl Dog.run Dog.init) = ([5, -2] : List Int).sum :=
  ⟨⟨by decide, by decide⟩, query_returns_sum_when_in_range [5, -2] (by decide) (by decide)⟩

/-- Claim C9 (confirmed): on a well-formed object state (as every reachable
state is), `run` with two amounts commutes, and `run 0` is the identity. -/
theorem increment_comm_and_zero_identity (d : Dog) (a b : Int) (hwf : d.Wf) :
    (d.run a).run b = (d.run b).run a ∧ d.run 0 = d := by
  constructor
  · show Dog.mk (wrap32 (wrap32 (d.distance_ + a) + b)) =
      Dog.mk (wrap32 (wrap32 (d.distance_ + b) + a))
    rw [wrap32_add_left, wrap32_add_left]
    ring_nf
  · cases d with
    | mk x =>
      show Dog.mk (wrap32 (x + 0)) = Dog.mk x
      rw [add_zero]
      exact congrArg Dog.mk (Int.emod_eq_of_lt hwf.1 hwf.2)

/-- Witness for claim C9 at the concrete state `5` with amounts `3`, `-4`. -/
theorem increment_comm_and_zero_identity_witness :
    Dog.Wf ⟨5⟩ ∧
      (((Dog.mk 5).run 3).run (-4) = ((Dog.mk 5).run (-4)).run 3 ∧
        (Dog.mk 5).run 0 = Dog.mk 5) :=
  ⟨by decide, increment_comm_and_zero_identity ⟨5⟩ 3 (-4) (by decide)⟩

/-- Claim C2 (confirmed): `read_data` builds a buffer of length
`max 0 (high - low + 1)` (with `low = svLeft`, `high = svRight`), and for
every index `i` in `[low, high]` the buffer element at position `i - low`
is the foreign array element at `i`: source order is preserved. -/
theorem read_data_marshals (a : SvOpenArray) :
    ((read_data a).length : Int) = max 0 (a.right - a.left + 1) ∧
    ∀ i : Int, a.left ≤ i → i ≤ a.right →
      (read_data a)[(i - a.left).toNat]? = some (a.elem i) := by
  constructor
  · rw [read_data_eq, List.length_map, List.length_range, Int.toNat_eq_max, max_comm]
    congr 1
    ring
  · intro i h1 h2
    rw [read_data_eq, List.getElem?_map, List.getElem?_range (by omega)]
    have hi : a.left + (((i - a.left).toNat : Nat) : Int) = i := by omega
    simp only [Option.map_some', hi]

/-- Witness for claim C2 at the spec's scenario: bounds `[0, 2]` with
contents `65 + i` (`0x41..0x43`); the buffer has length 3, its element at
position `1 - 0` is the array element at index 1, and the whole buffer
evaluates to `[65, 66, 67]`. -/
theorem read_data_marshals_witness :
    (((read_data ⟨0, 2, fun i => 65 + i⟩).length : Int) = max 0 (2 - 0 + 1)) ∧
    (read_data ⟨0, 2, fun i => 65 + i⟩)[((1 : Int) - (0 : Int)).toNat]? = some (65 + 1) ∧
    read_data ⟨0, 2, fun i => 65 + i⟩ = [65, 66, 67] :=
  ⟨(read_data_marshals ⟨0, 2, fun i => 65 + i⟩).1,
    (read_data_marshals ⟨0, 2, fun i => 65 + i⟩).2 1 (by decide) (by decide),
    by decide⟩

/-- Claim C4 (confirmed): when the lower bound exceeds the upper bound the
loop body never executes, so `read_data` yields the empty buffer whatever
the array contents are (no element is read, hence no faulting access), and
`send_udp_packet` still returns 0. -/
theorem read_data_empty_range (a : SvOpenArray) (h : a.right < a.left) :
    read_data a = [] ∧
    (∀ e : Int → Int, read_data ⟨a.left, a.right, e⟩ = []) ∧
    ∀ ip_address p, send_udp_packet ip_address p a = 0 := by
  have hz : (a.right + 1 - a.left).toNat = 0 := by omega
  refine ⟨?_, ?_, fun _ _ => rfl⟩
  · rw [read_data, hz]
    rfl
  · intro e
    rw [read_data_eq]
    show (List.range (a.right + 1 - a.left).toNat).map _ = []
    rw [hz]
    rfl

/-- Witness for claim C4 at the concrete empty range `left = 1 > 0 = right`. -/
theorem read_data_empty_range_witness :
    ((0 : Int) < 1) ∧ read_data ⟨1, 0, fun _ => 7⟩ = [] ∧
      send_udp_packet "127.0.0.1" 80 ⟨1, 0, fun _ => 7⟩ = 0 :=
  ⟨by decide, (read_data_empty_range ⟨1, 0, fun _ => 7⟩ (by decide)).1,
    (read_data_empty_range ⟨1, 0, fun _ => 7⟩ (by decide)).2.2 "127.0.0.1" 80⟩

/-- Claim C8 (confirmed): no shim operation checks handle validity, so
`dog_run`, `dog_distance` and `dog_dctor` on a handle that is not live
(never created, already destroyed, or foreign) have no defined outcome in
the model (undefined behaviour in the source). -/
theorem invalid_handle_undefined (m : Mem) (h : Nat) (a : Int)
    (hh : m.live h = none) :
    dpiStep m (.run h a) = none ∧ dpiStep m (.distance h) = none ∧
      dpiStep m (.dctor h) = none := by
  refine ⟨?_, ?_, ?_⟩ <;> simp only [dpiStep, hh]

/-- Witness for claim C8 on a heap whose only handle has been destroyed. -/
theorem invalid_handle_undefined_witness :
    Mem.live ⟨[none]⟩ 0 = none ∧
      (dpiStep ⟨[none]⟩ (.run 0 1) = none ∧ dpiStep ⟨[none]⟩ (.distance 0) = none ∧
        dpiStep ⟨[none]⟩ (.dctor 0) = none) :=
  ⟨by decide, invalid_handle_undefined ⟨[none]⟩ 0 1 (by decide)⟩

/-- Claim C7 (confirmed): `dog_distance` leaves the state unchanged and
returns the accumulator; `dog_run` returns no value, changes no handle other
than its argument, and updates that handle's object to exactly
`accumulator += amount` (32-bit addition). -/
theorem query_pure_increment_framed :
    (∀ (m : Mem) (h : Nat) (m' : Mem) (r : DpiRet),
        dpiStep m (.distance h) = some (m', r) → m' = m) ∧
    (∀ (m : Mem) (h : Nat) (d : Dog),
        m.live h = some d → dpiStep m (.distance h) = some (m, .val d.distance)) ∧
    (∀ (m : Mem) (h : Nat) (a : Int) (m' : Mem) (r : DpiRet),
        dpiStep m (.run h a) = some (m', r) →
          r = .unit ∧ ∀ h', h' ≠ h → m'.live h' = m.live h') ∧
    (∀ (m : Mem) (h : Nat) (a : Int) (d : Dog),
        m.live h = some d →
          dpiStep m (.run h a) = some (⟨m.heap.set h (some (d.run a))⟩, .unit)) := by
  refine ⟨?_, ?_, ?_, ?_⟩
  · intro m h m' r hstep
    simp only [dpiStep] at hstep
    split at hstep
    · simp only [Option.some.injEq, Prod.mk.injEq] at hstep
      exact hstep.1.symm
    · exact absurd hstep (by simp)
  · intro m h d hl
    simp only [dpiStep, hl]
  · intro m h a m' r hstep
    simp only [dpiStep] at hstep
    split at hstep
    · simp only [Option.some.injEq, Prod.mk.injEq] at hstep
      refine ⟨hstep.2.symm, ?_⟩
      intro h' hne
      rw [← hstep.1]
      exact Mem.live_set_ne m h h' _ hne
    · exact absurd hstep (by simp)
  · intro m h a d hl
    simp only [dpiStep, hl]

/-- Witness for claim C7 on the one-object heap `[⟨5⟩]`: querying handle 0
keeps the state, incrementing by 2 returns nothing and only rewrites slot
0. -/
theorem query_pure_increment_framed_witness :
    (Mem.mk [some (Dog.mk 5)] = Mem.mk [some (Dog.mk 5)]) ∧
    dpiStep ⟨[some (Dog.mk 5)]⟩ (.distance 0) =
      some (⟨[some (Dog.mk 5)]⟩, .val (Dog.mk 5).distance) ∧
    (DpiRet.unit = DpiRet.unit ∧
      ∀ h', h' ≠ 0 →
        Mem.live ⟨[some (Dog.mk 7)]⟩ h' = Mem.live ⟨[some (Dog.mk 5)]⟩ h') ∧
    dpiStep ⟨[some (Dog.mk 5)]⟩ (.run 0 2) =
      some (⟨[some (Dog.mk 5)].set 0 (some ((Dog.mk 5).run 2))⟩, .unit) :=
  ⟨query_pure_increment_framed.1 ⟨[some ⟨5⟩]⟩ 0 ⟨[some ⟨5⟩]⟩
      (.val (Dog.mk 5).distance) (by decide),
    query_pure_increment_framed.2.1 ⟨[some ⟨5⟩]⟩ 0 ⟨5⟩ (by decide),
    query_pure_increment_framed.2.2.1 ⟨[some ⟨5⟩]⟩ 0 2 ⟨[some (Dog.mk 7)]⟩
      .unit (by decide),
    query_pure_increment_framed.2.2.2 ⟨[some ⟨5⟩]⟩ 0 2 ⟨5⟩ (by decide)⟩

/-- Claim C6 is refuted as stated: from a fresh handle, Increment(5) then
Increment(-2) is a reachable trace along which the accumulator decreases
from 5 to 3, so "the accumulator never decreases" fails.  The trace is
spelled out step by step from the empty heap. -/
theorem accumulator_monotone_counterexample :
    dpiStep ⟨[]⟩ .ctor = some (⟨[some (Dog.mk 0)]⟩, .handle 0) ∧
    dpiStep ⟨[some (Dog.mk 0)]⟩ (.run 0 5) = some (⟨[some (Dog.mk 5)]⟩, .unit) ∧
    dpiStep ⟨[some (Dog.mk 5)]⟩ (.run 0 (-2)) =
      some (⟨[some (Dog.mk 3)]⟩, .unit) ∧
    (Dog.mk 3).distance < (Dog.mk 5).distance := by decide

/-- Claim C6 (corrected): the accumulator starts at zero and changes only
via explicit increments — Create yields an object with accumulator 0, and
across any defined step an existing object's accumulator is unchanged
unless the step is an Increment aimed at its handle, in which case it
changes by exactly that (possibly negative) amount. -/
theorem accumulator_changes_only_by_increment :
    ∀ (m : Mem) (c : DpiCall) (m' : Mem) (r : DpiRet), dpiStep m c = some (m', r) →
      (∀ h d', m.live h = none → m'.live h = some d' →
        c = .ctor ∧ h = m.heap.length ∧ d' = Dog.init) ∧
      (∀ h d d', m.live h = some d → m'.live h = some d' →
        d' = d ∨ ∃ a, c = .run h a ∧ d' = d.run a) := by
  intro m c m' r hstep
  cases c with
  | ctor =>
    simp only [dpiStep, Option.some.injEq, Prod.mk.injEq] at hstep
    obtain ⟨hm', _⟩ := hstep
    subst hm'
    constructor
    · intro h d' hnone hsome
      rcases Nat.lt_trichotomy h m.heap.length with hlt | heq | hgt
      · rw [Mem.live_concat_of_lt m _ h hlt, hnone] at hsome
        exact absurd hsome (by simp)
      · subst heq
        rw [Mem.live_concat_self] at hsome
        exact ⟨rfl, rfl, (Option.some.inj hsome).symm⟩
      · rw [Mem.live_concat_of_gt m _ h hgt] at hsome
        exact absurd hsome (by simp)
    · intro h d d' hsome hsome'
      have hlt : h < m.heap.length := Mem.live_lt hsome
      rw [Mem.live_concat_of_lt m _ h hlt, hsome] at hsome'
      exact Or.inl (Option.some.inj hsome').symm
  | dctor h0 =>
    simp only [dpiStep] at hstep
    split at hstep
    next d0 heq =>
      simp only [Option.some.injEq, Prod.mk.injEq] at hstep
      obtain ⟨hm', _⟩ := hstep
      subst hm'
      constructor
      · intro h d' hnone hsome
        by_cases hh : h = h0
        · subst hh
          have hlt : h < m.heap.length := Mem.live_lt heq
          rw [Mem.live_set_self m h _ hlt] at hsome
          exact absurd hsome (by simp)
        · rw [Mem.live_set_ne m h0 h _ hh, hnone] at hsome
          exact absurd hsome (by simp)
      · intro h d d' hsome hsome'
        by_cases hh : h = h0
        · subst hh
          have hlt : h < m.heap.length := Mem.live_lt hsome
          rw [Mem.live_set_self m h _ hlt] at hsome'
          exact absurd hsome' (by simp)
        · rw [Mem.live_set_ne m h0 h _ hh, hsome] at hsome'
          exact Or.inl (Option.some.inj hsome').symm
    next => exact absurd hstep (by simp)
  | run h0 a =>
    simp only [dpiStep] at hstep
    split at hstep
    next d0 heq =>
      simp only [Option.some.injEq, Prod.mk.injEq] at hstep
      obtain ⟨hm', _⟩ := hstep
      subst hm'
      constructor
      · intro h d' hnone hsome
        by_cases hh : h = h0
        · subst hh
          rw [hnone] at heq
          exact absurd heq (by simp)
        · rw [Mem.live_set_ne m h0 h _ hh, hnone] at hsome
          exact absurd hsome (by simp)
      · intro h d d' hsome hsome'
        by_cases hh : h = h0
        · subst hh
          have hd : d = d0 := by
            rw [hsome] at heq
            exact Option.some.inj heq
          have hlt : h < m.heap.length := Mem.live_lt hsome
          rw [Mem.live_set_self m h _ hlt] at hsome'
          refine Or.inr ⟨a, rfl, ?_⟩
          rw [hd]
          exact (Option.some.inj hsome').symm
        · rw [Mem.live_set_ne m h0 h _ hh, hsome] at hsome'
          exact Or.inl (Option.some.inj hsome').symm
    next => exact absurd hstep (by simp)
  | distance h0 =>
    simp only [dpiStep] at hstep
    split at hstep
    next d0 heq =>
      simp only [Option.some.injEq, Prod.mk.injEq] at hstep
      obtain ⟨hm', _⟩ := hstep
      subst hm'
      constructor
      · intro h d' hnone hsome
        rw [hnone] at hsome
        exact absurd hsome (by simp)
      · intro h d d' hsome hsome'
        rw [hsome] at hsome'
        exact Or.inl (Option.some.inj hsome').symm
    next => exact absurd hstep (by simp)

/-- Witness for the corrected claim C6: along the concrete defined step
incrementing handle 0 by 2 on the heap `[⟨5⟩]`, the surviving object's new
value is accounted for by that very increment. -/
theorem accumulator_changes_only_by_increment_witness :
    Dog.mk 7 = Dog.mk 5 ∨
      ∃ a : Int, DpiCall.run 0 2 = DpiCall.run 0 a ∧ Dog.mk 7 = (Dog.mk 5).run a :=
  (accumulator_changes_only_by_increment ⟨[some ⟨5⟩]⟩ (.run 0 2) ⟨[some ⟨7⟩]⟩
      .unit (by decide)).2 0 ⟨5⟩ ⟨7⟩ (by decide) (by decide)
